import Mathlib

/-!
A verification development for `prime11.c`: a Mersenne-prime searcher built
from a bounded producer/consumer task queue and a staged primality pipeline
(`lucas_lehmer`).  The definitions below are a shallow embedding of the C
source: `unsigned long` arithmetic is `Nat` with explicit `% 2 ^ 64` where
the C computation can wrap, GMP `mpz_t` values are unbounded integers
(`Nat` when provably non-negative, `Int` where GMP's signed semantics
matter), and each C loop becomes a structurally recursive function whose
fuel matches the loop's trip count.
-/

namespace Prime11

/-- Model of the GMP collaborator call `mpz_probab_prime_p(t, 25)`: the spec
treats it as an opaque probable-prime capability; it is modelled as an exact
primality predicate (trial division by every `d` with `2 ≤ d < n`), which
agrees with GMP on every value the program feeds it in the claims below. -/
def probab_prime (n : Nat) : Bool :=
  decide (2 ≤ n) && (List.range (n - 2)).all (fun d => n % (d + 2) != 0)

/-- The modulus of C `unsigned long` arithmetic (LP64: `ULONG_MAX = 2 ^ 64 - 1`). -/
def ulongSize : Nat := 2 ^ 64

/-- Line 107 of the source, the trial-division bound:
`unsigned long tlim = p / 2 > (ULONG_MAX / (2 * p)) ? ULONG_MAX / (2 * p) : p / 2;`.
The product `2 * p` is an `unsigned long` product, hence taken `% 2 ^ 64`.
When `2 * p % 2 ^ 64 = 0` (i.e. `p = 0` or `p = 2 ^ 63`) the C expression
divides by zero; this total model returns `0` there (Lean's `x / 0 = 0`),
and `tlim_line` below marks that case explicitly. -/
def tlim_code (p : Nat) : Nat :=
  if p / 2 > (ulongSize - 1) / (2 * p % ulongSize) then
    (ulongSize - 1) / (2 * p % ulongSize)
  else p / 2

/-- Line 107 with C's division-by-zero undefined behaviour made explicit:
`none` exactly when the divisor `2 * p % 2 ^ 64` is zero. -/
def tlim_line (p : Nat) : Option Nat :=
  if 2 * p % ulongSize == 0 then none else some (tlim_code p)

/-- The overflow-free reading of the spec's bound `tlim = min(p/2, MAX/(2p))`,
with `2 * p` computed over the unbounded integers (no wraparound).  Stated
from the spec's words for comparison with `tlim_code`. -/
def tlim_spec (p : Nat) : Nat := min (p / 2) ((ulongSize - 1) / (2 * p))

/-- The body of the trial-division loop (lines 108-115), iterating
`k, k+1, ...` for `fuel` steps (the caller passes `tlim - 1`, the trip count
of `for (k = 1; k < tlim; k++)`).  `q = 2 * p * k + 1` is an `unsigned long`
computation, hence `% 2 ^ 64`; the filter is
`(q % 8 == 1 || q % 8 == 7) && q % 3 && q % 5 && q % 7 && mpz_divisible_ui_p(mp, q)`.
Returns the factor `q` that triggered `return 0`, if any. -/
def trialLoop (p mp : Nat) : Nat → Nat → Option Nat
  | _, 0 => none
  | k, fuel + 1 =>
    let q := (2 * p * k + 1) % ulongSize
    if (q % 8 == 1 || q % 8 == 7) && (q % 3 != 0) && (q % 5 != 0) && (q % 7 != 0)
        && (mp % q == 0) then
      some q
    else trialLoop p mp (k + 1) fuel

/-- Stage 4 of the pipeline: the trial-division sieve of lines 106-115. -/
def trial_div (p mp : Nat) : Option Nat :=
  trialLoop p mp 1 (tlim_code p - 1)

/-- The guard of stage 3 (lines 95-104): `p > 3 && p % 4 == 3`, and then
`2p + 1` is probably prime and divides `mp` (the inner computation is GMP
bignum arithmetic, so `2 * p + 1` does not wrap). -/
def stage3_guard (p mp : Nat) : Bool :=
  (decide (3 < p) && (p % 4 == 3))
    && (probab_prime (2 * p + 1) && (mp % (2 * p + 1) == 0))

/-- The inner `while (mpz_cmp(V, mp) >= 0) mpz_sub(V, V, mp);` of line 128,
run for at most `fuel` iterations.  The call sites pass enough fuel for the
loop to reach its exit condition (see `whileSub_emod`). -/
def whileSub (mp : Int) : Nat → Int → Int
  | 0, V => V
  | fuel + 1, V => if mp ≤ V then whileSub mp fuel (V - mp) else V

/-- One iteration of the Lucas-Lehmer loop body (lines 123-128): square,
subtract 2, split into low `p` bits (`mpz_tdiv_r_2exp`) and high quotient
(`mpz_tdiv_q_2exp`), add, then subtract `mp` while the value is `≥ mp`.
GMP integers are signed, so the state is an `Int` and the splits use
truncated division exactly as the `tdiv` GMP calls do. -/
def llStep (p : Nat) (mp : Int) (V : Int) : Int :=
  let V1 := V * V - 2
  let t := Int.tmod V1 (2 ^ p)
  let Vq := Int.tdiv V1 (2 ^ p)
  whileSub mp ((Vq + t).toNat + 1) (Vq + t)

/-- The Lucas-Lehmer loop of lines 121-129 (`for (k = 3; k <= p; k++)`,
i.e. `n = p - 2` iterations starting from `V = 4`), returning the value of
`V` after `n` iterations. -/
def llsLoop (p : Nat) (mp : Int) : Nat → Int → Int
  | 0, V => V
  | n + 1, V => llsLoop p mp n (llStep p mp V)

/-- Stage 5: the full Lucas-Lehmer computation and the final test
`res = !mpz_sgn(V)` (line 130): `M_p` is declared prime iff `V` ends at `0`. -/
def lltest (p : Nat) (mp : Nat) : Bool :=
  llsLoop p (mp : Int) (p - 2) 4 == 0

/-- The compound primality pipeline `lucas_lehmer` (lines 77-134 of
`prime11.c`): decides whether `M_p = 2 ^ p - 1` is prime via the hard-coded
`p == 2` case, the exponent-primality filter, the `2p + 1` algebraic-factor
filter, the trial-division sieve, and finally the Lucas-Lehmer test. -/
def lucas_lehmer (p : Nat) : Bool :=
  if p == 2 then true
  else if !probab_prime p then false
  else
    let mp := 2 ^ p - 1
    if stage3_guard p mp then false
    else if (trial_div p mp).isSome then false
    else lltest p mp

/-- The spec's reference Lucas-Lehmer sequence, written from its words:
`V_1 = 4`, `V_{k+1} = (V_k ^ 2 - 2) mod M_p` (canonical residues in
`[0, M_p)`, via `Int.emod`); `sRef p i` is the term the source's value of
`V` should match after `i` loop iterations. -/
def sRef (p : Nat) : Nat → Int
  | 0 => 4
  | i + 1 => (sRef p i * sRef p i - 2) % ((2 ^ p - 1 : Nat) : Int)

/-- The model of the probable-prime collaborator is exact primality. -/
theorem probab_prime_iff (n : Nat) : probab_prime n = true ↔ Nat.Prime n := by
  simp only [probab_prime, Bool.and_eq_true, decide_eq_true_eq, List.all_eq_true,
    List.mem_range, bne_iff_ne, ne_eq]
  constructor
  · rintro ⟨h2, hall⟩
    rw [Nat.prime_def_lt]
    refine ⟨h2, fun m hm hdvd => ?_⟩
    by_contra hne
    have hm0 : m ≠ 0 := by
      rintro rfl
      have := Nat.eq_zero_of_zero_dvd hdvd
      omega
    have hm2 : 2 ≤ m := by omega
    have := hall (m - 2) (by omega)
    have : m ∣ n := hdvd
    have := Nat.mod_eq_zero_of_dvd hdvd
    have heq : m - 2 + 2 = m := by omega
    rw [← heq] at this
    exact hall (m - 2) (by omega) this
  · intro hp
    refine ⟨hp.two_le, fun d hd hmod => ?_⟩
    have hdvd : (d + 2) ∣ n := Nat.dvd_of_mod_eq_zero hmod
    rcases (Nat.Prime.eq_one_or_self_of_dvd hp _ hdvd) with h | h
    · omega
    · omega

set_option maxRecDepth 1000000 in
set_option maxHeartbeats 4000000 in
/-- Claim C1: for every exponent in
`{2, 3, 5, 7, 13, 17, 19, 31, 61, 89, 107, 127}` the pipeline returns
true (prime), and for every exponent in `{11, 23, 29, 37, 41, 43, 47, 53}`
it returns false (not prime). -/
theorem pipeline_small_exponent_verdicts :
    ([2, 3, 5, 7, 13, 17, 19, 31, 61, 89, 107, 127].all
        (fun p => lucas_lehmer p)) = true ∧
    ([11, 23, 29, 37, 41, 43, 47, 53].all
        (fun p => !lucas_lehmer p)) = true := by
  decide

/-- Claim C2 (the code is wrong here): line 107 does form `2 * p` in
`unsigned long` arithmetic before dividing.  At `p = 2 ^ 63` the divisor
`2 * p % 2 ^ 64` is `0`, so `ULONG_MAX / (2 * p)` is a division by zero
(undefined behaviour in C, marked `none` by `tlim_line`); at
`p = 2 ^ 63 + 1` the computed bound is `2 ^ 62` although the overflow-free
bound `min(p/2, MAX/(2p))` is `0`, so every candidate factor `2pk + 1`
the loop would form wraps around `2 ^ 64`. -/
theorem tlim_forms_2p_unsafely :
    2 * 2 ^ 63 % ulongSize = 0 ∧
    tlim_line (2 ^ 63) = none ∧
    tlim_code (2 ^ 63 + 1) = 2 ^ 62 ∧
    tlim_spec (2 ^ 63 + 1) = 0 := by
  decide

/-- For exponents below `2 ^ 63` (so `2 * p` does not wrap) the code's
bound agrees with the overflow-free formula. -/
theorem tlim_code_eq_spec_of_small (p : Nat) (h0 : 0 < p) (h : p < 2 ^ 63) :
    tlim_code p = tlim_spec p := by
  have hlt : 2 * p < ulongSize := by
    simp only [ulongSize]
    omega
  have hmod : 2 * p % ulongSize = 2 * p := Nat.mod_eq_of_lt hlt
  rw [tlim_code, tlim_spec, hmod]
  rcases Nat.lt_or_ge ((ulongSize - 1) / (2 * p)) (p / 2) with hc | hc
  · rw [if_pos hc, Nat.min_eq_right (Nat.le_of_lt hc)]
  · rw [if_neg (by omega), Nat.min_eq_left hc]

/-- Claim C6: the trial-division stage alone, applied to `p = 11` and
`p = 23`, finds the divisors `23` and `47` respectively (and hence
`lucas_lehmer` would return composite from stage 4, never reaching the
Lucas-Lehmer stage, whose guard `(trial_div p mp).isSome` short-circuits). -/
theorem trial_div_finds_23_and_47 :
    trial_div 11 (2 ^ 11 - 1) = some 23 ∧
    trial_div 23 (2 ^ 23 - 1) = some 47 := by
  decide

/-- Claim C10: for `p = 0` and `p = 1` (below the spec's candidate domain
but produced by the generator) the pipeline is total and returns false:
the exponent-primality filter rejects both, so no later stage runs. -/
theorem pipeline_rejects_zero_and_one :
    lucas_lehmer 0 = false ∧ lucas_lehmer 1 = false ∧
    probab_prime 0 = false ∧ probab_prime 1 = false := by
  decide

/-- Claim C5: for every `p > 3` with `p % 4 = 3` such that `p` passes the
probable-prime filter, `q = 2p + 1` is probably prime and `q` divides
`M_p`, the pipeline rejects `p` at the special algebraic-factor filter
(stage 3, whose guard fires, short-circuiting before the trial-division
and Lucas-Lehmer stages).  Instantiated at `p = 11`, `q = 23` by the
witness below. -/
theorem stage3_factor_filter_rejects (p : Nat) (hgt : 3 < p)
    (hmod4 : p % 4 = 3) (hpp : probab_prime p = true)
    (hqp : probab_prime (2 * p + 1) = true)
    (hdvd : (2 * p + 1) ∣ (2 ^ p - 1)) :
    stage3_guard p (2 ^ p - 1) = true ∧ lucas_lehmer p = false := by
  have hg : stage3_guard p (2 ^ p - 1) = true := by
    have hmp : (2 ^ p - 1) % (2 * p + 1) = 0 := Nat.mod_eq_zero_of_dvd hdvd
    simp [stage3_guard, hgt, hmod4, hqp, hmp]
  have hne : (p == 2) = false := by
    simp only [beq_eq_false_iff_ne, ne_eq]
    omega
  refine ⟨hg, ?_⟩
  simp [lucas_lehmer, hne, hpp, hg]

/-- Witness for claim C5, at `p = 11`: `23 = 2 * 11 + 1` is prime and
divides `M_11 = 2047 = 23 * 89`, so the pipeline rejects `11` at stage 3. -/
theorem stage3_factor_filter_rejects_witness :
    stage3_guard 11 (2 ^ 11 - 1) = true ∧ lucas_lehmer 11 = false :=
  stage3_factor_filter_rejects 11 (by decide) (by decide) (by decide)
    (by decide) (by decide)

/-- The subtraction loop does nothing on a negative value. -/
theorem whileSub_of_neg (mp : Int) (fuel : Nat) (V : Int) (hmp : 0 < mp)
    (hV : V < 0) : whileSub mp fuel V = V := by
  cases fuel with
  | zero => rfl
  | succ f =>
    simp only [whileSub]
    rw [if_neg (by omega)]

/-- With enough fuel, the subtraction loop on a non-negative value computes
the canonical residue. -/
theorem whileSub_emod (mp : Int) (hmp : 0 < mp) (fuel : Nat) :
    ∀ V : Int, 0 ≤ V → V.toNat ≤ fuel → whileSub mp fuel V = V % mp := by
  induction fuel with
  | zero =>
    intro V h0 hf
    have hV : V = 0 := by omega
    subst hV
    simp [whileSub]
  | succ f ih =>
    intro V h0 hf
    simp only [whileSub]
    by_cases hc : mp ≤ V
    · rw [if_pos hc, ih (V - mp) (by omega) (by omega), Int.emod_sub_cancel]
    · rw [if_neg hc, Int.emod_eq_of_lt h0 (by omega)]

theorem tdiv_neg_small (a m : Int) (h0 : 0 ≤ a) (h : a < m) :
    (-a).tdiv m = 0 := by
  rw [Int.neg_tdiv, Int.tdiv_eq_zero_of_lt h0 h, neg_zero]

theorem tmod_neg_small (a m : Int) (h0 : 0 ≤ a) (h : a < m) :
    (-a).tmod m = -a := by
  rw [Int.tmod_def, tdiv_neg_small a m h0 h, mul_zero, sub_zero]

/-- Casting `M_p` from the `Nat` model into `Int`. -/
theorem mersenne_cast (p : Nat) : ((2 ^ p - 1 : Nat) : Int) = 2 ^ p - 1 := by
  have h : (1 : Nat) ≤ 2 ^ p := Nat.one_le_two_pow
  push_cast [h]
  ring

theorem two_pow_ge (p : Nat) (hp : 3 ≤ p) : (8 : Int) ≤ 2 ^ p := by
  calc (8 : Int) = 2 ^ 3 := by norm_num
  _ ≤ 2 ^ p := pow_le_pow_right₀ (by norm_num) hp

/-- One loop iteration commutes past the recursion: running `n + 1`
iterations is one `llStep` after `n` iterations. -/
theorem llsLoop_succ (p : Nat) (mp : Int) (n : Nat) (V : Int) :
    llsLoop p mp (n + 1) V = llStep p mp (llsLoop p mp n V) := by
  induction n generalizing V with
  | zero => rfl
  | succ k ih =>
    have h1 : llsLoop p mp (k + 1 + 1) V = llsLoop p mp (k + 1) (llStep p mp V) := rfl
    rw [h1, ih]
    rfl

/-- The reference residues are canonical: in `[0, M_p)`. -/
theorem sRef_bounds (p : Nat) (hp : 3 ≤ p) (i : Nat) :
    0 ≤ sRef p i ∧ sRef p i < ((2 ^ p - 1 : Nat) : Int) := by
  have hM := mersenne_cast p
  have h2p := two_pow_ge p hp
  have hMpos : 0 < ((2 ^ p - 1 : Nat) : Int) := by omega
  induction i with
  | zero =>
    constructor
    · norm_num [sRef]
    · show (4 : Int) < _
      omega
  | succ k _ =>
    simp only [sRef]
    exact ⟨Int.emod_nonneg _ (by omega), Int.emod_lt_of_pos _ hMpos⟩

/-- When the squared-and-decremented value is non-negative, one iteration of
the source's loop body lands exactly on the canonical residue of
`V ^ 2 - 2` modulo `M_p`. -/
theorem llStep_eq_emod (p : Nat) (hp : 3 ≤ p) (V : Int)
    (h1 : 0 ≤ V * V - 2) :
    llStep p ((2 ^ p - 1 : Nat) : Int) V
      = (V * V - 2) % ((2 ^ p - 1 : Nat) : Int) := by
  have hM := mersenne_cast p
  have h2p := two_pow_ge p hp
  have h2ppos : (0 : Int) < 2 ^ p := by positivity
  have hMpos : (0 : Int) < ((2 ^ p - 1 : Nat) : Int) := by omega
  simp only [llStep]
  rw [Int.tmod_eq_emod h1 (le_of_lt h2ppos), Int.tdiv_eq_ediv h1 (le_of_lt h2ppos)]
  have hq : 0 ≤ (V * V - 2) / 2 ^ p := Int.ediv_nonneg h1 (le_of_lt h2ppos)
  have ht : 0 ≤ (V * V - 2) % 2 ^ p := Int.emod_nonneg _ (by omega)
  rw [whileSub_emod _ hMpos _ _ (by omega) (by omega)]
  have hsplit := Int.ediv_add_emod (V * V - 2) (2 ^ p)
  have key : V * V - 2 = ((V * V - 2) / 2 ^ p + (V * V - 2) % 2 ^ p)
      + ((2 ^ p - 1 : Nat) : Int) * ((V * V - 2) / 2 ^ p) := by
    rw [hM]
    linear_combination -hsplit
  conv_rhs => rw [key]
  rw [Int.add_mul_emod_self_left]

/-- When the squared-and-decremented value is negative (the entering value
was `-1`, `0` or `1`), GMP's truncated split passes it through unchanged:
the iteration yields the negative value `V ^ 2 - 2` itself. -/
theorem llStep_of_neg (p : Nat) (hp : 3 ≤ p) (V : Int)
    (h1 : V * V - 2 < 0) :
    llStep p ((2 ^ p - 1 : Nat) : Int) V = V * V - 2 := by
  have hM := mersenne_cast p
  have h2p := two_pow_ge p hp
  have hMpos : (0 : Int) < ((2 ^ p - 1 : Nat) : Int) := by omega
  have hsq : 0 ≤ V * V := mul_self_nonneg V
  simp only [llStep]
  generalize hgen : V * V - 2 = y at h1 hsq ⊢
  have hy : y = -1 ∨ y = -2 := by omega
  have hneg1 : ((-1 : Int)) = -(1 : Int) := by norm_num
  have hneg2 : ((-2 : Int)) = -(2 : Int) := by norm_num
  rcases hy with rfl | rfl
  · rw [hneg1, tdiv_neg_small 1 (2 ^ p) (by norm_num) (by omega),
      tmod_neg_small 1 (2 ^ p) (by norm_num) (by omega)]
    norm_num
    exact whileSub_of_neg _ _ _ (by omega) (by norm_num)
  · rw [hneg2, tdiv_neg_small 2 (2 ^ p) (by norm_num) (by omega),
      tmod_neg_small 2 (2 ^ p) (by norm_num) (by omega)]
    norm_num
    exact whileSub_of_neg _ _ _ (by omega) (by norm_num)

/-- The loop invariant of the source's Lucas-Lehmer loop: after `i`
iterations the value is congruent to the reference residue `sRef p i`
modulo `M_p` and lies in `[-2, M_p)`. -/
theorem lls_invariant (p : Nat) (hp : 3 ≤ p) (i : Nat) :
    -2 ≤ llsLoop p ((2 ^ p - 1 : Nat) : Int) i 4 ∧
    llsLoop p ((2 ^ p - 1 : Nat) : Int) i 4 < ((2 ^ p - 1 : Nat) : Int) ∧
    llsLoop p ((2 ^ p - 1 : Nat) : Int) i 4 % ((2 ^ p - 1 : Nat) : Int)
      = sRef p i := by
  have hM := mersenne_cast p
  have h2p := two_pow_ge p hp
  have hMpos : (0 : Int) < ((2 ^ p - 1 : Nat) : Int) := by omega
  induction i with
  | zero =>
    refine ⟨by norm_num [llsLoop], ?_, ?_⟩
    · show (4 : Int) < _
      omega
    · show (4 : Int) % _ = 4
      exact Int.emod_eq_of_lt (by norm_num) (by omega)
  | succ i ih =>
    obtain ⟨hge, hlt, hmod⟩ := ih
    have hsb := sRef_bounds p hp i
    have hsmod : sRef p i % ((2 ^ p - 1 : Nat) : Int) = sRef p i :=
      Int.emod_eq_of_lt hsb.1 hsb.2
    have hVe : llsLoop p ((2 ^ p - 1 : Nat) : Int) i 4
        ≡ sRef p i [ZMOD ((2 ^ p - 1 : Nat) : Int)] := by
      show _ % _ = _ % _
      rw [hmod, hsmod]
    have hcong : (llsLoop p ((2 ^ p - 1 : Nat) : Int) i 4
          * llsLoop p ((2 ^ p - 1 : Nat) : Int) i 4 - 2)
        ≡ (sRef p i * sRef p i - 2) [ZMOD ((2 ^ p - 1 : Nat) : Int)] :=
      (hVe.mul hVe).sub (Int.ModEq.refl 2)
    rw [llsLoop_succ]
    rcases le_or_lt 0 (llsLoop p ((2 ^ p - 1 : Nat) : Int) i 4
        * llsLoop p ((2 ^ p - 1 : Nat) : Int) i 4 - 2) with hpos | hneg
    · rw [llStep_eq_emod p hp _ hpos]
      refine ⟨le_trans (by norm_num) (Int.emod_nonneg _ (by omega)), 
        Int.emod_lt_of_pos _ hMpos, ?_⟩
      rw [Int.emod_emod_of_dvd _ dvd_rfl]
      show _ = sRef p (i + 1)
      simp only [sRef]
      exact hcong
    · rw [llStep_of_neg p hp _ hneg]
      have hsq : 0 ≤ llsLoop p ((2 ^ p - 1 : Nat) : Int) i 4
          * llsLoop p ((2 ^ p - 1 : Nat) : Int) i 4 :=
        mul_self_nonneg _
      refine ⟨by omega, by omega, ?_⟩
      show _ = sRef p (i + 1)
      simp only [sRef]
      exact hcong

/-- As long as every reference residue entering an iteration is at least
`2`, the source's loop value is exactly the reference residue. -/
theorem lls_exact (p : Nat) (hp : 3 ≤ p) (i : Nat)
    (hreg : ∀ j, j < i → 2 ≤ sRef p j) :
    llsLoop p ((2 ^ p - 1 : Nat) : Int) i 4 = sRef p i := by
  induction i with
  | zero => rfl
  | succ i ih =>
    have hx := ih (fun j hj => hreg j (Nat.lt_succ_of_lt hj))
    have hs2 : 2 ≤ sRef p i := hreg i (Nat.lt_succ_self i)
    have h1 : 0 ≤ sRef p i * sRef p i - 2 := by nlinarith
    rw [llsLoop_succ, hx, llStep_eq_emod p hp _ h1]
    simp only [sRef]

/-- Claim C4: for every prime `p` with `3 <= p` (in particular every
exponent reaching stage 5), the source's loop over `k = 3..p` computes the
reference Lucas-Lehmer sequence `V_1 = 4`, `V_{k+1} = (V_k ^ 2 - 2) mod M_p`:
after each iteration the value equals the true residue modulo
`M_p = 2 ^ p - 1` (its residue class is `sRef p i`, and it stays in
`[-2, M_p)`; the value is literally the canonical residue whenever every
reference residue entering an iteration so far is at least `2` — GMP's
signed arithmetic makes the value `V ^ 2 - 2 < 0` itself, still in the
right class, in the never-observed case of an earlier residue below `2`);
consequently the final zero test of stage 5 agrees exactly with the
reference sequence's final residue. -/
theorem ll_loop_refines_reference (p : Nat) (_hprime : Nat.Prime p)
    (hp : 3 ≤ p) :
    (∀ i,
      llsLoop p ((2 ^ p - 1 : Nat) : Int) i 4 % ((2 ^ p - 1 : Nat) : Int)
        = sRef p i ∧
      (-2 ≤ llsLoop p ((2 ^ p - 1 : Nat) : Int) i 4 ∧
        llsLoop p ((2 ^ p - 1 : Nat) : Int) i 4 < ((2 ^ p - 1 : Nat) : Int)) ∧
      (llsLoop p ((2 ^ p - 1 : Nat) : Int) i 4 = 0 ↔ sRef p i = 0) ∧
      ((∀ j, j < i → 2 ≤ sRef p j) →
        llsLoop p ((2 ^ p - 1 : Nat) : Int) i 4 = sRef p i)) ∧
    (lltest p (2 ^ p - 1) = true ↔ sRef p (p - 2) = 0) := by
  have hM := mersenne_cast p
  have h2p := two_pow_ge p hp
  have main : ∀ i,
      llsLoop p ((2 ^ p - 1 : Nat) : Int) i 4 % ((2 ^ p - 1 : Nat) : Int)
        = sRef p i ∧
      (-2 ≤ llsLoop p ((2 ^ p - 1 : Nat) : Int) i 4 ∧
        llsLoop p ((2 ^ p - 1 : Nat) : Int) i 4 < ((2 ^ p - 1 : Nat) : Int)) ∧
      (llsLoop p ((2 ^ p - 1 : Nat) : Int) i 4 = 0 ↔ sRef p i = 0) ∧
      ((∀ j, j < i → 2 ≤ sRef p j) →
        llsLoop p ((2 ^ p - 1 : Nat) : Int) i 4 = sRef p i) := by
    intro i
    obtain ⟨hge, hlt, hmod⟩ := lls_invariant p hp i
    refine ⟨hmod, ⟨hge, hlt⟩, ⟨?_, ?_⟩, lls_exact p hp i⟩
    · intro h0
      rw [h0] at hmod
      simpa using hmod.symm
    · intro h0
      rw [h0] at hmod
      have hdvd : ((2 ^ p - 1 : Nat) : Int) ∣ llsLoop p ((2 ^ p - 1 : Nat) : Int) i 4 :=
        Int.dvd_of_emod_eq_zero hmod
      rcases lt_trichotomy (llsLoop p ((2 ^ p - 1 : Nat) : Int) i 4) 0 with hneg | hzero | hpos
      · have hdvd2 : ((2 ^ p - 1 : Nat) : Int) ∣ -llsLoop p ((2 ^ p - 1 : Nat) : Int) i 4 :=
          (dvd_neg).2 hdvd
        have := Int.le_of_dvd (by omega) hdvd2
        omega
      · exact hzero
      · have := Int.le_of_dvd hpos hdvd
        omega
  refine ⟨main, ?_⟩
  simp only [lltest, beq_iff_eq]
  exact (main (p - 2)).2.2.1

/-- Witness for claim C4, at the prime exponent `p = 5`. -/
theorem ll_loop_refines_reference_witness :
    Nat.Prime 5 ∧
    ((∀ i,
      llsLoop 5 ((2 ^ 5 - 1 : Nat) : Int) i 4 % ((2 ^ 5 - 1 : Nat) : Int)
        = sRef 5 i ∧
      (-2 ≤ llsLoop 5 ((2 ^ 5 - 1 : Nat) : Int) i 4 ∧
        llsLoop 5 ((2 ^ 5 - 1 : Nat) : Int) i 4 < ((2 ^ 5 - 1 : Nat) : Int)) ∧
      (llsLoop 5 ((2 ^ 5 - 1 : Nat) : Int) i 4 = 0 ↔ sRef 5 i = 0) ∧
      ((∀ j, j < i → 2 ≤ sRef 5 j) →
        llsLoop 5 ((2 ^ 5 - 1 : Nat) : Int) i 4 = sRef 5 i)) ∧
    (lltest 5 (2 ^ 5 - 1) = true ↔ sRef 5 (5 - 2) = 0)) :=
  ⟨by norm_num, ll_loop_refines_reference 5 (by norm_num) (by norm_num)⟩

/-- Parameter record handed to threads (lines 28-30): a candidate exponent. -/
structure ThreadData where
  p : Nat
deriving DecidableEq

/-- The task queue (lines 33-42): a circular buffer with capacity
`max_tasks`, `head`/`tail`/`count` bookkeeping (C `int`s, modelled as `Int`),
and the two counting semaphores (non-negative counters). The mutex
serialises each operation, so an operation is one atomic step here. -/
structure TaskQueue where
  tasks : List ThreadData
  max_tasks : Int
  head : Int
  tail : Int
  count : Int
  sem_empty : Nat
  sem_full : Nat

/-- Lines 44-53, `init_queue`: fresh buffer of `max_tasks` cells (the malloc
contents are arbitrary; the model picks exponent `0`), indices and count at
`0`, `sem_empty` starting at the capacity and `sem_full` at `0`. -/
def init_queue (max_tasks : Int) : TaskQueue :=
  ⟨List.replicate max_tasks.toNat ⟨0⟩, max_tasks, 0, 0, 0, max_tasks.toNat, 0⟩

/-- Lines 55-63, `enqueue` (after `sem_wait(&sem_empty)` has succeeded,
i.e. `sem_empty` was positive): write at `tail`, advance `tail` modulo the
capacity (C `%` on `int` is truncated division, `Int.tmod`), bump `count`,
decrement `sem_empty`, post `sem_full`. -/
def enqueue (queue : TaskQueue) (data : ThreadData) : TaskQueue :=
  ⟨queue.tasks.set queue.tail.toNat data,
   queue.max_tasks,
   queue.head,
   (queue.tail + 1).tmod queue.max_tasks,
   queue.count + 1,
   queue.sem_empty - 1,
   queue.sem_full + 1⟩

/-- Lines 65-74, `dequeue` (after `sem_wait(&sem_full)` has succeeded):
read at `head`, advance `head` modulo the capacity, decrement `count` and
`sem_full`, post `sem_empty`.  Returns the read item with the new state. -/
def dequeue (queue : TaskQueue) : ThreadData × TaskQueue :=
  (queue.tasks.getD queue.head.toNat ⟨0⟩,
   ⟨queue.tasks,
    queue.max_tasks,
    (queue.head + 1).tmod queue.max_tasks,
    queue.tail,
    queue.count - 1,
    queue.sem_empty + 1,
    queue.sem_full - 1⟩)

/-- Observable queue events: an enqueue or a dequeue of a candidate. -/
inductive QEvent where
  | enq : ThreadData → QEvent
  | deq : ThreadData → QEvent

/-- One atomic queue operation.  `sem_wait` blocks while the semaphore is
zero, so a step exists only when the corresponding counter is positive; a
blocked thread simply takes no step. -/
inductive QStep : TaskQueue → QEvent → TaskQueue → Prop where
  | enq (s : TaskQueue) (v : ThreadData) (h : 0 < s.sem_empty) :
      QStep s (QEvent.enq v) (enqueue s v)
  | deq (s : TaskQueue) (h : 0 < s.sem_full) :
      QStep s (QEvent.deq (dequeue s).1) (dequeue s).2

/-- A finite interleaving of queue operations. -/
inductive Trace : TaskQueue → List QEvent → TaskQueue → Prop where
  | nil (s : TaskQueue) : Trace s [] s
  | cons (s s2 s3 : TaskQueue) (e : QEvent) (es : List QEvent) :
      QStep s e s2 → Trace s2 es s3 → Trace s (e :: es) s3

/-- The values enqueued along a trace, in order. -/
def enqs : List QEvent → List ThreadData
  | [] => []
  | QEvent.enq v :: es => v :: enqs es
  | QEvent.deq _ :: es => enqs es

/-- The values dequeued along a trace, in order. -/
def deqs : List QEvent → List ThreadData
  | [] => []
  | QEvent.enq _ :: es => deqs es
  | QEvent.deq v :: es => v :: deqs es

/-- The circular-buffer representation invariant: the abstract queue
content `l` sits in the buffer cells `head, head+1, ..., head+count-1`
(modulo the capacity `C`), the semaphores count the free and occupied
slots, and the indices are in range. -/
def Inv (C : Int) (s : TaskQueue) (l : List ThreadData) : Prop :=
  s.max_tasks = C ∧
  s.tasks.length = C.toNat ∧
  0 ≤ s.head ∧
  s.head < C ∧
  s.count = l.length ∧
  l.length ≤ C.toNat ∧
  s.sem_empty = C.toNat - l.length ∧
  s.sem_full = l.length ∧
  s.tail = (s.head + l.length) % C ∧
  ∀ i : Nat, i < l.length →
    s.tasks.getD ((s.head + i) % C).toNat ⟨0⟩ = l.getD i ⟨0⟩

theorem emod_add_shift (C a b : Int) : (a % C + b) % C = (a + b) % C := by
  rw [Int.add_emod, Int.emod_emod_of_dvd a dvd_rfl, ← Int.add_emod]

/-- Two in-window offsets land on distinct buffer cells. -/
theorem emod_idx_ne (C h : Int) (hC : 0 < C) (i j : Nat) (hij : i < j)
    (hj : (j : Int) - i < C) :
    ((h + i) % C).toNat ≠ ((h + j) % C).toNat := by
  intro he
  have h1 : 0 ≤ (h + i) % C := Int.emod_nonneg _ (by omega)
  have h2 : 0 ≤ (h + j) % C := Int.emod_nonneg _ (by omega)
  have heq : (h + (i : Int)) % C = (h + j) % C := by omega
  have hmodeq : (h + (i : Int)) ≡ (h + j) [ZMOD C] := heq
  have hdvd : C ∣ (h + (j : Int)) - (h + i) := hmodeq.dvd
  have hrw : (h + (j : Int)) - (h + i) = (j : Int) - i := by ring
  rw [hrw] at hdvd
  have := Int.le_of_dvd (by omega) hdvd
  omega

theorem inv_init (C : Int) (hC : 0 < C) : Inv C (init_queue C) [] := by
  refine ⟨rfl, by simp [init_queue], le_refl 0, hC, rfl, by simp, by simp [init_queue], rfl,
    by simp [init_queue], ?_⟩
  intro i hi
  simp at hi

/-- `enqueue` preserves the representation invariant, appending the new
value to the abstract queue; it is only enabled strictly below capacity. -/
theorem inv_enqueue (C : Int) (hC : 0 < C) (s : TaskQueue) (l : List ThreadData)
    (hinv : Inv C s l) (v : ThreadData) (hsem : 0 < s.sem_empty) :
    l.length < C.toNat ∧ Inv C (enqueue s v) (l ++ [v]) := by
  obtain ⟨h1, h2, h3, h4, h5, h6, h7, h8, h9, h10⟩ := hinv
  have hlen : l.length < C.toNat := by omega
  have htail0 : 0 ≤ s.tail := by
    rw [h9]
    exact Int.emod_nonneg _ (by omega)
  have htailC : s.tail < C := by
    rw [h9]
    exact Int.emod_lt_of_pos _ hC
  have htailn : s.tail.toNat < s.tasks.length := by omega
  refine ⟨hlen, h1, ?_, h3, h4, ?_, ?_, ?_, ?_, ?_, ?_⟩
  · show (s.tasks.set s.tail.toNat v).length = C.toNat
    simpa using h2
  · show s.count + 1 = _
    simp only [List.length_append, List.length_cons, List.length_nil]
    push_cast
    omega
  · simp only [List.length_append, List.length_cons, List.length_nil]
    omega
  · show s.sem_empty - 1 = _
    simp only [List.length_append, List.length_cons, List.length_nil]
    omega
  · show s.sem_full + 1 = _
    simp only [List.length_append, List.length_cons, List.length_nil]
    omega
  · show (s.tail + 1).tmod s.max_tasks = (s.head + (((l ++ [v]).length : Nat) : Int)) % C
    rw [h1, Int.tmod_eq_emod (by omega) (by omega), h9, emod_add_shift]
    simp only [List.length_append, List.length_cons, List.length_nil]
    push_cast
    ring_nf
  · intro i hi
    simp only [List.length_append, List.length_cons, List.length_nil] at hi
    show (s.tasks.set s.tail.toNat v).getD ((s.head + (i : Int)) % C).toNat ⟨0⟩ = _
    by_cases hilt : i < l.length
    · have hne : ((s.head + (i : Int)) % C).toNat ≠ s.tail.toNat := by
        rw [h9]
        exact emod_idx_ne C s.head hC i l.length hilt (by omega)
      have h10i := h10 i hilt
      rw [List.getD_eq_getElem?_getD, List.getElem?_set_ne (Ne.symm hne),
        ← List.getD_eq_getElem?_getD, h10i, List.getD_eq_getElem?_getD,
        List.getD_eq_getElem?_getD, List.getElem?_append_left hilt]
    · have hieq : i = l.length := by omega
      subst hieq
      rw [← h9, List.getD_eq_getElem?_getD, List.getElem?_set_self htailn,
        List.getD_eq_getElem?_getD, List.getElem?_append_right (Nat.le_refl _)]
      simp

/-- `dequeue` preserves the representation invariant, removing the first
element of the abstract queue and returning exactly that element. -/
theorem inv_dequeue (C : Int) (hC : 0 < C) (s : TaskQueue) (l : List ThreadData)
    (hinv : Inv C s l) (hsem : 0 < s.sem_full) :
    ∃ a l2, l = a :: l2 ∧ (dequeue s).1 = a ∧ Inv C (dequeue s).2 l2 := by
  obtain ⟨h1, h2, h3, h4, h5, h6, h7, h8, h9, h10⟩ := hinv
  have hlen : 0 < l.length := by omega
  cases l with
  | nil => simp at hlen
  | cons a l2 =>
    have htm : (s.head + 1).tmod s.max_tasks = (s.head + 1) % C := by
      rw [h1]
      exact Int.tmod_eq_emod (by omega) (by omega)
    refine ⟨a, l2, rfl, ?_, ?_⟩
    · have h100 := h10 0 (by simp)
      simp only [Nat.cast_zero, add_zero, List.getD_cons_zero] at h100
      rw [Int.emod_eq_of_lt h3 h4] at h100
      exact h100
    · simp only [List.length_cons] at h5 h6 h7 h8 h9
      refine ⟨h1, h2, ?_, ?_, ?_, ?_, ?_, ?_, ?_, ?_⟩
      · show 0 ≤ (s.head + 1).tmod s.max_tasks
        rw [htm]
        exact Int.emod_nonneg _ (by omega)
      · show (s.head + 1).tmod s.max_tasks < C
        rw [htm]
        exact Int.emod_lt_of_pos _ hC
      · show s.count - 1 = _
        push_cast at h5 ⊢
        omega
      · omega
      · show s.sem_empty + 1 = _
        omega
      · show s.sem_full - 1 = _
        omega
      · show s.tail = ((s.head + 1).tmod s.max_tasks + (l2.length : Int)) % C
        rw [htm, emod_add_shift, h9]
        push_cast
        ring_nf
      · intro i hi
        show s.tasks.getD (((s.head + 1).tmod s.max_tasks + (i : Int)) % C).toNat ⟨0⟩ = _
        rw [htm, emod_add_shift]
        have h10i := h10 (i + 1) (by simp only [List.length_cons]; omega)
        simp only [List.getD_cons_succ] at h10i
        push_cast at h10i
        rw [show s.head + 1 + (i : Int) = s.head + ((i : Int) + 1) by ring]
        exact h10i

/-- Along any trace from an invariant-satisfying state, the dequeued values
are exactly the first `(deqs es).length` values of the abstract queue
followed by the enqueued values; and the invariant is maintained. -/
theorem trace_inv (C : Int) (hC : 0 < C) (s : TaskQueue) (es : List QEvent)
    (s2 : TaskQueue) (htr : Trace s es s2) :
    ∀ l, Inv C s l →
      deqs es = (l ++ enqs es).take (deqs es).length ∧ ∃ l2, Inv C s2 l2 := by
  induction htr with
  | nil s => exact fun l hinv => ⟨by simp [deqs], ⟨l, hinv⟩⟩
  | cons s s2 s3 e es hstep htr ih =>
    intro l hinv
    cases hstep with
    | enq v hsem =>
      obtain ⟨hlen, hinv2⟩ := inv_enqueue C hC s l hinv v hsem
      obtain ⟨hpre, hex⟩ := ih (l ++ [v]) hinv2
      refine ⟨?_, hex⟩
      simp only [deqs, enqs]
      rw [List.append_assoc] at hpre
      simp only [List.cons_append, List.nil_append] at hpre
      exact hpre
    | deq hsem =>
      obtain ⟨a, l2, rfl, hval, hinv2⟩ := inv_dequeue C hC s l hinv hsem
      obtain ⟨hpre, hex⟩ := ih l2 hinv2
      refine ⟨?_, hex⟩
      simp only [deqs, enqs]
      rw [hval, List.cons_append, List.length_cons, List.take_succ_cons, ← hpre]

/-- Claim C3: over any sequence of enqueues interleaved arbitrarily with
dequeues respecting the capacity (every step enabled by the semaphores),
the dequeued values are precisely an initial segment of the enqueued
values, in order: every dequeued value was previously enqueued, no value is
dequeued twice, and FIFO order is preserved. -/
theorem queue_fifo (C : Int) (hC : 0 < C) (es : List QEvent) (s : TaskQueue)
    (h : Trace (init_queue C) es s) :
    deqs es = (enqs es).take (deqs es).length := by
  have hmain := (trace_inv C hC _ es s h [] (inv_init C hC)).1
  simpa using hmain

/-- Witness for claim C3: enqueue 2 and 3, dequeue once, on capacity 100. -/
theorem queue_fifo_witness :
    deqs [QEvent.enq ⟨2⟩, QEvent.enq ⟨3⟩, QEvent.deq ⟨2⟩]
      = (enqs [QEvent.enq ⟨2⟩, QEvent.enq ⟨3⟩, QEvent.deq ⟨2⟩]).take
          (deqs [QEvent.enq ⟨2⟩, QEvent.enq ⟨3⟩, QEvent.deq ⟨2⟩]).length :=
  queue_fifo 100 (by norm_num) _ _
    (Trace.cons _ _ _ _ _ (QStep.enq _ ⟨2⟩ (by decide))
      (Trace.cons _ _ _ _ _ (QStep.enq _ ⟨3⟩ (by decide))
        (Trace.cons _ _ _ _ _ (QStep.deq _ (by decide))
          (Trace.nil _))))

/-- Claim C7: in every state reachable from `init_queue C` by enabled
enqueue/dequeue steps, `0 ≤ count ≤ C`; moreover every enqueue step
advances `tail` by one modulo `C` (leaving `head` alone, incrementing
`count`), and every dequeue step advances `head` by one modulo `C`
(leaving `tail` alone, decrementing `count`), so at most `C` candidates
are in flight at any time. -/
theorem queue_count_invariant (C : Int) (hC : 0 < C) (es : List QEvent)
    (s : TaskQueue) (h : Trace (init_queue C) es s) :
    (0 ≤ s.count ∧ s.count ≤ C) ∧
    (∀ v s2, QStep s (QEvent.enq v) s2 →
      s2.tail = (s.tail + 1).tmod C ∧ s2.head = s.head ∧
        s2.count = s.count + 1) ∧
    (∀ v s2, QStep s (QEvent.deq v) s2 →
      s2.head = (s.head + 1).tmod C ∧ s2.tail = s.tail ∧
        s2.count = s.count - 1) := by
  obtain ⟨l, hinv⟩ := (trace_inv C hC _ es s h [] (inv_init C hC)).2
  obtain ⟨h1, h2, h3, h4, h5, h6, h7, h8, h9, h10⟩ := hinv
  refine ⟨⟨?_, ?_⟩, ?_, ?_⟩
  · omega
  · omega
  · intro v s2 hstep
    cases hstep with
    | enq _ hsem => exact ⟨by rw [← h1]; rfl, rfl, rfl⟩
  · intro v s2 hstep
    cases hstep with
    | deq hsem => exact ⟨by rw [← h1]; rfl, rfl, rfl⟩

/-- Witness for claim C7, after a single enqueue on capacity 100. -/
theorem queue_count_invariant_witness :
    (0 ≤ (enqueue (init_queue 100) ⟨7⟩).count ∧
      (enqueue (init_queue 100) ⟨7⟩).count ≤ 100) ∧
    (∀ v s2, QStep (enqueue (init_queue 100) ⟨7⟩) (QEvent.enq v) s2 →
      s2.tail = ((enqueue (init_queue 100) ⟨7⟩).tail + 1).tmod 100 ∧
        s2.head = (enqueue (init_queue 100) ⟨7⟩).head ∧
        s2.count = (enqueue (init_queue 100) ⟨7⟩).count + 1) ∧
    (∀ v s2, QStep (enqueue (init_queue 100) ⟨7⟩) (QEvent.deq v) s2 →
      s2.head = ((enqueue (init_queue 100) ⟨7⟩).head + 1).tmod 100 ∧
        s2.tail = (enqueue (init_queue 100) ⟨7⟩).tail ∧
        s2.count = (enqueue (init_queue 100) ⟨7⟩).count - 1) :=
  queue_count_invariant 100 (by norm_num) [QEvent.enq ⟨7⟩] _
    (Trace.cons _ _ _ _ _ (QStep.enq _ ⟨7⟩ (by decide)) (Trace.nil _))

/-- Claim C8: in every reachable state an enqueue step exists exactly when
`count < C` and a dequeue step exactly when `count > 0` (a producer facing
a full queue, or a consumer facing an empty one, is blocked); from a full
queue the only possible step is a dequeue; and an enabled enqueue writes to
a buffer cell outside the occupied window `head .. head + count - 1`
(mod `C`), so it never overwrites an occupied slot. -/
theorem queue_backpressure (C : Int) (hC : 0 < C) (es : List QEvent)
    (s : TaskQueue) (h : Trace (init_queue C) es s) :
    ((∃ v s2, QStep s (QEvent.enq v) s2) ↔ s.count < C) ∧
    ((∃ v s2, QStep s (QEvent.deq v) s2) ↔ 0 < s.count) ∧
    (s.count = C → ∀ e s2, QStep s e s2 → ∃ v, e = QEvent.deq v) ∧
    (∀ v s2, QStep s (QEvent.enq v) s2 →
      ∀ i : Nat, (i : Int) < s.count →
        ((s.head + (i : Int)) % C).toNat ≠ s.tail.toNat) := by
  obtain ⟨l, hinv⟩ := (trace_inv C hC _ es s h [] (inv_init C hC)).2
  obtain ⟨h1, h2, h3, h4, h5, h6, h7, h8, h9, h10⟩ := hinv
  have henq : (∃ v s2, QStep s (QEvent.enq v) s2) ↔ s.count < C := by
    constructor
    · rintro ⟨v, s2, hstep⟩
      cases hstep with
      | enq _ hsem => omega
    · intro hcount
      exact ⟨⟨0⟩, enqueue s ⟨0⟩, QStep.enq s ⟨0⟩ (by omega)⟩
  have hdeq : (∃ v s2, QStep s (QEvent.deq v) s2) ↔ 0 < s.count := by
    constructor
    · rintro ⟨v, s2, hstep⟩
      cases hstep with
      | deq hsem => omega
    · intro hcount
      exact ⟨(dequeue s).1, (dequeue s).2, QStep.deq s (by omega)⟩
  refine ⟨henq, hdeq, ?_, ?_⟩
  · intro hfull e s2 hstep
    cases hstep with
    | enq _ hsem => omega
    | deq hsem => exact ⟨_, rfl⟩
  · intro v s2 hstep i hi
    cases hstep with
    | enq _ hsem =>
      rw [h9]
      exact emod_idx_ne C s.head hC i l.length (by omega) (by omega)

/-- Witness for claim C8, after a single enqueue on capacity 100. -/
theorem queue_backpressure_witness :
    ((∃ v s2, QStep (enqueue (init_queue 100) ⟨9⟩) (QEvent.enq v) s2) ↔
      (enqueue (init_queue 100) ⟨9⟩).count < 100) ∧
    ((∃ v s2, QStep (enqueue (init_queue 100) ⟨9⟩) (QEvent.deq v) s2) ↔
      0 < (enqueue (init_queue 100) ⟨9⟩).count) ∧
    ((enqueue (init_queue 100) ⟨9⟩).count = 100 →
      ∀ e s2, QStep (enqueue (init_queue 100) ⟨9⟩) e s2 →
        ∃ v, e = QEvent.deq v) ∧
    (∀ v s2, QStep (enqueue (init_queue 100) ⟨9⟩) (QEvent.enq v) s2 →
      ∀ i : Nat, (i : Int) < (enqueue (init_queue 100) ⟨9⟩).count →
        (((enqueue (init_queue 100) ⟨9⟩).head + (i : Int)) % 100).toNat ≠
          (enqueue (init_queue 100) ⟨9⟩).tail.toNat) :=
  queue_backpressure 100 (by norm_num) [QEvent.enq ⟨9⟩] _
    (Trace.cons _ _ _ _ _ (QStep.enq _ ⟨9⟩ (by decide)) (Trace.nil _))

/-- Model of the C locale-default `isspace` set used by `strtoul`. -/
def isSpaceChar (c : Char) : Bool :=
  c == ' ' || c == '\t' || c == '\n' || c == '\r' ||
    c == Char.ofNat 11 || c == Char.ofNat 12

/-- The digit-consuming loop of `strtoul` base 10: consume leading decimal
digits, accumulating the value and saturating at `ULONG_MAX` (the C
standard's out-of-range result); stop at the first non-digit. -/
def parseDigits : List Char → Nat → Nat
  | [], acc => acc
  | c :: cs, acc =>
    if c.isDigit then
      parseDigits cs (min (acc * 10 + (c.toNat - 48)) (ulongSize - 1))
    else acc

/-- Model of the libc collaborator `strtoul(arg, 0, 10)` (line 152), from
its standard semantics: skip leading whitespace, consume one optional sign
(a leading minus negates the converted value in `unsigned long`
arithmetic), then consume decimal digits; when no digits can be consumed
the conversion fails and the result is `0`. -/
def strtoul10 (s : List Char) : Nat :=
  let s1 := s.dropWhile (fun c => isSpaceChar c)
  if s1.headD ' ' == '-' then
    (ulongSize - parseDigits s1.tail 0 % ulongSize) % ulongSize
  else if s1.headD ' ' == '+' then
    parseDigits s1.tail 0
  else
    parseDigits s1 0

/-- An argument on which `strtoul` consumes no digits (conversion failure):
after whitespace and an optional sign, no digit follows. -/
def unparsable (s : List Char) : Bool :=
  let s1 := s.dropWhile (fun c => isSpaceChar c)
  if s1.headD ' ' == '-' || s1.headD ' ' == '+' then
    !(s1.tail.headD ' ').isDigit
  else
    !(s1.headD ' ').isDigit

/-- Line 152 of the source:
`unsigned long start = (argc >= 2) ? strtoul(argv[1], 0, 10) : 1;`,
with `args` the command-line arguments after the program name. -/
def main_start (args : List (List Char)) : Nat :=
  match args with
  | arg1 :: _ => strtoul10 arg1
  | [] => 1

theorem parseDigits_of_not_digit (cs : List Char) (acc : Nat)
    (h : (cs.headD ' ').isDigit = false) : parseDigits cs acc = acc := by
  cases cs with
  | nil => rfl
  | cons c cs =>
    simp only [List.headD_cons] at h
    simp [parseDigits, h]

/-- A conversion failure yields `strtoul`'s failure value `0`. -/
theorem strtoul10_unparsable (s : List Char) (h : unparsable s = true) :
    strtoul10 s = 0 := by
  simp only [unparsable] at h
  simp only [strtoul10]
  by_cases h1 : ((s.dropWhile (fun c => isSpaceChar c)).headD ' ' == '-') = true
  · rw [if_pos h1]
    rw [h1] at h
    simp only [Bool.true_or, if_true, Bool.not_eq_true'] at h
    rw [parseDigits_of_not_digit _ _ h]
    simp [ulongSize]
  · rw [if_neg h1]
    by_cases h2 : ((s.dropWhile (fun c => isSpaceChar c)).headD ' ' == '+') = true
    · rw [if_pos h2]
      rw [h2] at h
      simp only [Bool.or_true, if_true, Bool.not_eq_true'] at h
      exact parseDigits_of_not_digit _ _ h
    · rw [if_neg h2]
      rw [Bool.not_eq_true] at h1 h2
      rw [h1, h2] at h
      simp only [Bool.or_self] at h
      rw [if_neg (by simp)] at h
      rw [Bool.not_eq_true'] at h
      exact parseDigits_of_not_digit _ _ h

/-- Claim C9 is false on the code: for the unparsable argument string
`"a"`, `strtoul` consumes no digits and returns `0`, so the starting
exponent is `0`, not the claimed default `1`. -/
theorem start_default_counterexample :
    main_start [['a']] = 0 ∧ ¬ main_start [['a']] = 1 := by
  decide

/-- Claim C9 as amended: the starting exponent defaults to `1` when the
argument is absent, but an unparsable argument yields `strtoul`'s failure
value `0` (the search then starts at exponent `0`), not `1`. -/
theorem start_default_amended :
    main_start [] = 1 ∧
    ∀ cs : List Char, unparsable cs = true → main_start [cs] = 0 :=
  ⟨rfl, fun cs h => strtoul10_unparsable cs h⟩

/-- Witness for amended claim C9, at the argument string `"a"`. -/
theorem start_default_amended_witness :
    main_start [] = 1 ∧ unparsable ['a'] = true ∧ main_start [['a']] = 0 :=
  ⟨start_default_amended.1, by decide, start_default_amended.2 ['a'] (by decide)⟩

end Prime11
